import Mathlib

/-!
# Verification of the AI-Powered Workplace Automation core pipeline

A shallow embedding, in Lean 4, of the retrieval / chunking / generation
pipeline of the repository: the text splitter, the caching embeddings
service, the search service, the QA chain and the summarization chain.

Python strings are modelled as `List Char`; network backends (the OpenAI
embedding and chat endpoints, the Pinecone index) are modelled as explicit
function parameters ("oracles"); a Python call that may raise is a Lean
function into `Except PyErr`; mutable object state (the embedding cache,
the QA conversation history) is passed and returned explicitly.

`DocumentTextSplitter.split_text` delegates wholesale to langchain's
`RecursiveCharacterTextSplitter`, which is an external dependency and is
not part of the repository's sources; the splitting algorithm is therefore
modelled from the specification (recursive separator splitting with the
separator priority list configured in `app/core/text_splitter.py`,
followed by reassembly into chunks of at most the target size with a
bounded overlap carried between consecutive chunks).
-/

namespace Workplace

/-- Python `str`, modelled as a list of characters. -/
abbrev Str := List Char

/-- Embedding vectors.  The claims under study never inspect the float
components, so vector entries are modelled as integers. -/
abbrev Vec := List Int

/-- The error conditions surfaced by the modelled code paths.  The
repository defines no `EmbeddingBackendError` / `GenerationError` classes;
exceptions raised by the backends propagate unchanged, so the model keeps
one constructor per backend-level failure kind. -/
inductive PyErr where
  /-- `openai.RateLimitError` escaping a backend call. -/
  | rateLimitError : PyErr
  /-- A connection-level error escaping a backend call. -/
  | apiConnectionError : PyErr
  /-- A failure of the generative (chat) backend. -/
  | generationError : PyErr
  /-- Python `ValueError` (e.g. "Document ... not found"). -/
  | valueError : PyErr
deriving DecidableEq, Repr

/-- Python `str.strip()`: leading and trailing whitespace removed. -/
def pyStrip (s : Str) : Str :=
  ((s.dropWhile Char.isWhitespace).reverse.dropWhile Char.isWhitespace).reverse

/-- Python `l[-n:]`: the last `n` elements of a list. -/
def lastN (n : Nat) (l : List α) : List α :=
  l.drop (l.length - n)

/-! ## Text splitter (`app/core/text_splitter.py`, modelled from the spec)

Modelled from the spec: `DocumentTextSplitter.split_text` calls
`RecursiveCharacterTextSplitter.split_text` of the external langchain
package, whose implementation is not in the repository.  Following spec
§4.2: split on the coarsest separator of the configured priority list,
recursively re-split any piece still exceeding the target size with the
next separator (character-level splitting as the terminating base case),
then reassemble adjacent pieces into chunks of at most the target size,
sliding the window back by the overlap amount between consecutive
chunks.  Separators are kept, so splitting loses no characters. -/

/-- The default separator priority list configured in
`DocumentTextSplitter.__init__`: paragraphs, lines, sentences, clauses,
words, characters. -/
def defaultSeparators : List Str :=
  ["\n\n".data, "\n".data, ". ".data, ", ".data, " ".data, []]

/-- Split `text` at every occurrence of the (non-empty) separator `sep`,
keeping each occurrence of the separator as a piece of its own, so that
the concatenation of the pieces is exactly `text`. -/
def splitKeep (sep : Str) : Str → List Str
  | [] => []
  | c :: rest =>
    if sep.isPrefixOf (c :: rest) ∧ sep ≠ [] then
      sep :: splitKeep sep (List.drop (sep.length - 1) rest)
    else
      match splitKeep sep rest with
      | [] => [[c]]
      | p :: ps => if sep.isPrefixOf p then [c] :: p :: ps else (c :: p) :: ps
termination_by text => text.length
decreasing_by
  · simp only [List.length_cons]
    have := List.length_drop (sep.length - 1) rest
    omega
  · simp [Nat.lt_succ_self]

/-- Recursive separator splitting: a text of at most `cs` characters is a
single piece; otherwise it is split on the first separator of `seps` and
every piece still longer than `cs` is re-split with the remaining
separators, character-level splitting being the base case. -/
def splitPieces (cs : Nat) : List Str → Str → List Str
  | _, [] => []
  | [], text =>
    if text.length ≤ cs then [text] else text.map (fun c => [c])
  | sep :: seps, text =>
    if text.length ≤ cs then [text]
    else if sep = [] then text.map (fun c => [c])
    else (splitKeep sep text).flatMap
      (fun p => if p.length ≤ cs then [p] else splitPieces cs seps p)

/-- Reassembly of pieces into chunks.  A chunk is kept as a pair
`(carry, body)`: `carry` is the overlap inherited from the previous chunk
(a suffix of it, of at most `ov` characters), `body` is the new content.
Pieces are appended to the current chunk while it stays within `cs`
characters; when a piece does not fit the chunk is closed and a new chunk
is started from the overlap window slid back over the closed chunk. -/
def mergeCB (cs ov : Nat) (carry cur : Str) : List Str → List (Str × Str)
  | [] => if carry = [] ∧ cur = [] then [] else [(carry, cur)]
  | p :: ps =>
    if carry.length + cur.length + p.length ≤ cs then
      mergeCB cs ov carry (cur ++ p) ps
    else
      (carry, cur) ::
        mergeCB cs ov
          ((carry ++ cur).drop ((carry ++ cur).length - min ov (cs - p.length))) p ps

/-- `split_text` with an explicit separator list: split recursively, then
merge the pieces into overlapping chunks. -/
def split_text_with (cs ov : Nat) (seps : List Str) (text : Str) : List Str :=
  (mergeCB cs ov [] [] (splitPieces cs seps text)).map (fun cb => cb.1 ++ cb.2)

/-- `DocumentTextSplitter.split_text` with the configured chunk size and
overlap, using the default separator priority list. -/
def split_text (cs ov : Nat) (text : Str) : List Str :=
  split_text_with cs ov defaultSeparators text

/-- The first characters of the non-empty default separators.  A text
containing none of them exercises the character-level fallback of the
splitter. -/
def sepChars : List Char := ['\n', '.', ',', ' ']

/-- Texts on which splitting falls back to character-based splitting: no
default separator occurs in them. -/
def charOnly (text : Str) : Prop := ∀ c ∈ text, c ∉ sepChars

/-! ## Embeddings service (`app/core/embeddings_service.py`)

`EmbeddingsService` holds a cache `Dict[str, List[float]]` keyed by
`md5(text).hexdigest()`.  The md5 digest is modelled as an injective key
function (the identity on the text); the cache is an association list with
most-recent-first lookup, matching dict assignment.  The embedding
backend (`OpenAIEmbeddings.embed_query` / `.embed_documents`) is external;
it is modelled as one oracle `backend : Str → Except PyErr Vec` applied
per text, per spec §6 the batch endpoint returns one vector per input
text in the same order. -/

/-- Cache keys: `_get_cache_key` computes `md5(text.encode()).hexdigest()`,
modelled as an injective function of the text (the identity). -/
def cacheKey (text : Str) : Str := text

/-- The embedding cache: association list from cache key to vector. -/
abbrev Cache := List (Str × Vec)

/-- The cache probe performed by `embed_text` / `embed_texts`: a lookup
when `use_cache` is set, always a miss otherwise. -/
def cacheHit (useCache : Bool) (cache : Cache) (text : Str) : Option Vec :=
  if useCache then List.lookup (cacheKey text) cache else none

/-- `EmbeddingsService.embed_text`: return the cached vector on a cache
hit; otherwise call the backend once, caching the result only on success.
Returns the outcome, the cache afterwards, and the number of backend
calls made (0 on a hit, 1 otherwise). -/
def embed_text (backend : Str → Except PyErr Vec) (useCache : Bool)
    (cache : Cache) (text : Str) : Except PyErr Vec × Cache × Nat :=
  match cacheHit useCache cache text with
  | some v => (Except.ok v, cache, 0)
  | none =>
    match backend text with
    | Except.ok v =>
      (Except.ok v, if useCache then (cacheKey text, v) :: cache else cache, 1)
    | Except.error e => (Except.error e, cache, 1)

/-- The first pass of `embed_texts` over `texts` starting at index `i`:
the output array with cached vectors filled in and `None` placeholders at
the misses, and the `(index, text)` pairs of the misses in input order
(`text_indices` zipped with `texts_to_embed`).  When `use_cache` is false
every text is a miss, matching the `else` branch of the Python code. -/
def planEmbed (useCache : Bool) (cache : Cache) :
    Nat → List Str → List (Option Vec) × List (Nat × Str)
  | _, [] => ([], [])
  | i, t :: ts =>
    let rest := planEmbed useCache cache (i + 1) ts
    match cacheHit useCache cache t with
    | some v => (some v :: rest.1, rest.2)
    | none => (none :: rest.1, (i, t) :: rest.2)

/-- Fuel-driven batching recursion; the fuel is an upper bound on the
number of batches, consumed once per emitted batch. -/
def toBatchesAux (n : Nat) : Nat → List α → List (List α)
  | _, [] => []
  | 0, l => [l]
  | fuel + 1, l => if n = 0 then [l] else l.take n :: toBatchesAux n fuel (l.drop n)

/-- `range(0, len(l), n)` batching: split `l` into consecutive batches of
`n` elements (a single batch when `n = 0`, a case the Python code rejects
and no claim exercises). -/
def toBatches (n : Nat) (l : List α) : List (List α) :=
  toBatchesAux n l.length l

/-- Write one successfully embedded batch back: each vector is stored in
the output array at its original index and inserted into the cache (keyed
by the text) when caching is on. -/
def applyBatch (useCache : Bool) (st : List (Option Vec) × Cache)
    (pvs : List ((Nat × Str) × Vec)) : List (Option Vec) × Cache :=
  pvs.foldl
    (fun st pv =>
      (st.1.set pv.1.1 (some pv.2),
       if useCache then (cacheKey pv.1.2, pv.2) :: st.2 else st.2))
    st

/-- One `embed_documents` call on a batch: per spec §6 the embedding
endpoint embeds each text of the batch independently, returning one
vector per input text in the same order; any failure fails the batch
call. -/
def batchBackendCall (backend : Str → Except PyErr Vec) :
    List (Nat × Str) → Except PyErr (List Vec)
  | [] => Except.ok []
  | p :: ps =>
    match backend p.2, batchBackendCall backend ps with
    | Except.error e, _ => Except.error e
    | Except.ok _, Except.error e => Except.error e
    | Except.ok v, Except.ok vs => Except.ok (v :: vs)

/-- Process the miss batches in order: one backend call per batch; a
backend failure aborts the whole call (the Python exception propagates
out of `embed_texts`). -/
def processBatches (backend : Str → Except PyErr Vec) (useCache : Bool) :
    List (List (Nat × Str)) → List (Option Vec) × Cache →
    Except PyErr (List (Option Vec) × Cache)
  | [], st => Except.ok st
  | b :: bs, st =>
    match batchBackendCall backend b with
    | Except.error e => Except.error e
    | Except.ok vs => processBatches backend useCache bs (applyBatch useCache st (b.zip vs))

/-- `EmbeddingsService.embed_texts`: partition the inputs into cache hits
and misses, embed the misses in sub-batches of `batchSize`, and write the
results back at the original indices. -/
def embed_texts (backend : Str → Except PyErr Vec) (useCache : Bool)
    (batchSize : Nat) (cache : Cache) (texts : List Str) :
    Except PyErr (List (Option Vec) × Cache) :=
  let plan := planEmbed useCache cache 0 texts
  processBatches backend useCache (toBatches batchSize plan.2) (plan.1, cache)

/-- The vector `embed_text` returns for a text when the backend embeds
`t` as `f t`: the cached vector on a hit, the backend's vector otherwise. -/
def embedSingleVal (useCache : Bool) (f : Str → Vec) (cache : Cache) (t : Str) : Vec :=
  (cacheHit useCache cache t).getD (f t)

/-- Specification-side view of the write-back phase: store `f t` at every
miss index, ignoring the cache component.  The batched processing of
`embed_texts` is proved equal to this. -/
def setAll (f : Str → Vec) (es : List (Option Vec)) (ps : List (Nat × Str)) :
    List (Option Vec) :=
  ps.foldl (fun es p => es.set p.1 (some (f p.2))) es

/-! ## Documents, metadata and the vector payload -/

/-- A metadata mapping (string keys to string values), as an association
list with most-recent-first lookup. -/
abbrev Meta := List (Str × Str)

/-- A langchain `Document`: page content plus metadata. -/
structure PyDocument where
  page_content : Str
  metadata : Meta
deriving DecidableEq, Repr

/-- A vector prepared for Pinecone upsert by `embed_documents`:
id, embedding values and metadata.  The `values` field keeps the
`Option` of the output slot it is copied from. -/
structure PineVector where
  id : Str
  values : Option Vec
  metadata : Meta
deriving DecidableEq, Repr

/-- `EmbeddingsService.embed_documents`: embed the page contents, then
pair each document with its embedding; the metadata sent to the index is
the document metadata with a `"text"` entry holding only the first 1000
characters of the chunk content (`doc.page_content[:1000]`). -/
def embed_documents (backend : Str → Except PyErr Vec) (useCache : Bool)
    (batchSize : Nat) (cache : Cache) (docs : List PyDocument) :
    Except PyErr (List PineVector × Cache) :=
  match embed_texts backend useCache batchSize cache (docs.map (·.page_content)) with
  | Except.error e => Except.error e
  | Except.ok (es, c) =>
    Except.ok
      (((docs.zip es).enum).map
        (fun q =>
          { id := (List.lookup ("id".data) q.2.1.metadata).getD
              ("doc_".data ++ (toString q.1).data)
            values := q.2.2
            metadata := ("text".data, q.2.1.page_content.take 1000) :: q.2.1.metadata }),
       c)

/-! ## Search service (`app/services/search_service.py`)

The Pinecone index is external: `query` is an oracle from a query vector
and a `top_k` to a match list, `fetch` an oracle from an id to its stored
vector (`None` when absent, making `fetch([id])` an empty dict). -/

/-- A Pinecone query match: id, similarity score and stored metadata.
Scores are modelled as integers; no claim inspects them. -/
structure PCMatch where
  id : Str
  score : Int
  metadata : Meta
deriving DecidableEq, Repr

/-- The `SearchResult` model (`app/models/search_models.py`). -/
structure SearchResult where
  document_id : Str
  score : Int
  text : Str
  metadata : Meta
deriving DecidableEq, Repr

/-- Formatting one match as a `SearchResult`:
`text = match.get('metadata', {}).get('text', '')`. -/
def toSearchResult (m : PCMatch) : SearchResult :=
  { document_id := m.id
    score := m.score
    text := (List.lookup ("text".data) m.metadata).getD []
    metadata := m.metadata }

/-- `SearchService.search`: embed the query (through the cache), query
the index, format the matches.  The timing fields of the Python return
dict are not modelled. -/
def search (backend : Str → Except PyErr Vec)
    (pcQuery : Vec → Nat → List PCMatch) (cache : Cache)
    (query : Str) (topK : Nat) : Except PyErr (List SearchResult × Cache) :=
  match embed_text backend true cache query with
  | (Except.error e, _, _) => Except.error e
  | (Except.ok qv, cache2, _) =>
    Except.ok ((pcQuery qv topK).map toSearchResult, cache2)

/-- The `[Source {i+1}] {text}` context lines of `search_with_answer`,
joined by blank lines. -/
def formatContext (results : List SearchResult) : Str :=
  List.intercalate ("\n\n".data)
    (results.enum.map
      (fun p => "[Source ".data ++ (toString (p.1 + 1)).data ++ "] ".data ++ p.2.text))

/-- The filled QA-with-sources prompt of `app/chains/qa_chain.py`
(`QA_WITH_SOURCES_TEMPLATE` with `context` and `question` substituted). -/
def mkQASourcesPrompt (context question : Str) : Str :=
  ("You are a helpful AI assistant that answers questions based on provided context and always cites sources.\n\nUse the following pieces of context to answer the question. Each piece of context has a source identifier.\n\nFor your answer:\n1. Provide a clear, concise answer to the question\n2. Cite which sources (by ID) you used\n3. If the context doesn't contain enough information, say so\n\nContext:\n").data
  ++ context ++ ("\n\nQuestion: ").data ++ question
  ++ ("\n\nAnswer (with source citations):").data

/-- The filled plain QA prompt (`QA_PROMPT_TEMPLATE`). -/
def mkQAPrompt (context question : Str) : Str :=
  ("You are a helpful AI assistant that answers questions based on the provided context.\n\nUse the following pieces of context to answer the question at the end. If you don't know the answer based on the context, say \"I don't have enough information to answer that question.\"\n\nAlways cite the source of your information when possible.\n\nContext:\n").data
  ++ context ++ ("\n\nQuestion: ").data ++ question ++ ("\n\nAnswer:").data

/-- `QAChain.answer_question`: build the prompt, invoke the generative
backend once, strip the completion.  Only the `answer` entry of the
returned dict is modelled. -/
def answer_question (llm : Str → Except PyErr Str)
    (question context : Str) (includeSources : Bool) : Except PyErr Str :=
  let prompt :=
    if includeSources then mkQASourcesPrompt context question
    else mkQAPrompt context question
  match llm prompt with
  | Except.error e => Except.error e
  | Except.ok t => Except.ok (pyStrip t)

/-- `SearchService.search_with_answer`: search, build the source-tagged
context, generate the answer with `include_sources=True`.  On success the
returned value carries the search results and the answer; an exception in
either stage propagates. -/
def search_with_answer (backend : Str → Except PyErr Vec)
    (pcQuery : Vec → Nat → List PCMatch) (llm : Str → Except PyErr Str)
    (cache : Cache) (query : Str) (topK : Nat) :
    Except PyErr (List SearchResult × Str × Cache) :=
  match search backend pcQuery cache query topK with
  | Except.error e => Except.error e
  | Except.ok (results, cache2) =>
    match answer_question llm query (formatContext results) true with
    | Except.error e => Except.error e
    | Except.ok answer => Except.ok (results, answer, cache2)

/-- `SearchService.find_similar_documents`: fetch the document's own
stored vector (a missing id raises `ValueError`), query `top_k + 1`
nearest neighbours, drop every match whose id equals the source id,
format, and truncate to `top_k`. -/
def find_similar_documents (pcFetch : Str → Option Vec)
    (pcQuery : Vec → Nat → List PCMatch) (documentId : Str) (topK : Nat) :
    Except PyErr (List SearchResult) :=
  match pcFetch documentId with
  | none => Except.error PyErr.valueError
  | some v =>
    Except.ok
      ((((pcQuery v (topK + 1)).filter (fun m => m.id != documentId)).map
        toSearchResult).take topK)

/-! ## QA chain conversation history (`app/chains/qa_chain.py`) -/

/-- One conversation turn: a `{"question": ..., "answer": ...}` entry of
`QAChain.chat_history`. -/
structure QATurn where
  question : Str
  answer : Str
deriving DecidableEq, Repr

/-- One `Q:`/`A:` block of the rendered transcript. -/
def renderTurn (t : QATurn) : Str :=
  ("Q: ").data ++ t.question ++ ("\nA: ").data ++ t.answer

/-- The `chat_history` block of the conversational prompt: the last five
stored turns (`self.chat_history[-5:]`), or the fixed placeholder when
that renders empty. -/
def render_chat_history (hist : List QATurn) : Str :=
  let s := List.intercalate ("\n".data) ((lastN 5 hist).map renderTurn)
  if s = [] then ("No previous conversation.").data else s

/-- The filled conversational prompt (`CONVERSATIONAL_QA_TEMPLATE`). -/
def mkConversationalPrompt (hist : List QATurn) (context question : Str) : Str :=
  ("You are a helpful AI assistant having a conversation with a human.\n\nUse the following pieces of context and conversation history to answer the current question.\n\nConversation History:\n").data
  ++ render_chat_history hist
  ++ ("\n\nContext:\n").data ++ context
  ++ ("\n\nCurrent Question: ").data ++ question
  ++ ("\n\nAnswer:").data

/-- `QAChain.answer_with_conversation_history`: render the last five
turns into the prompt, invoke the generative backend, and, when
`update_history` is set, append the new `(question, answer)` pair to the
stored history.  Returns the answer, the stored history afterwards and
`conversation_turns = len(self.chat_history)`. -/
def answer_with_conversation_history (llm : Str → Except PyErr Str)
    (hist : List QATurn) (question context : Str) (updateHistory : Bool) :
    Except PyErr (Str × List QATurn × Nat) :=
  match llm (mkConversationalPrompt hist context question) with
  | Except.error e => Except.error e
  | Except.ok t =>
    let answer := pyStrip t
    let hist2 := if updateHistory then hist ++ [⟨question, answer⟩] else hist
    Except.ok (answer, hist2, hist2.length)

/-- A session of consecutive history-updating conversational calls with a
shared context, threading the stored history; used to observe the growth
of `chat_history`. -/
def runConversation (llm : Str → Except PyErr Str) (context : Str) :
    List QATurn → List Str → Except PyErr (List QATurn)
  | hist, [] => Except.ok hist
  | hist, q :: qs =>
    match answer_with_conversation_history llm hist q context true with
    | Except.error e => Except.error e
    | Except.ok (_, hist2, _) => runConversation llm context hist2 qs

/-! ## Summarization chain (`app/chains/summarization_chain.py`)

The langchain `LLMChain` / `MapReduceDocumentsChain` invocations are
external network calls, modelled as oracles; the splitter used by the
map-reduce path is langchain's `RecursiveCharacterTextSplitter` with
chunk size 3000 and overlap 200, modelled by `split_text` above. -/

/-- The prompt templates `get_summary_prompt` can return. -/
inductive PromptKind where
  | technicalSummary : PromptKind
  | fewShotSummary : PromptKind
  | briefSummary : PromptKind
  | detailedSummary : PromptKind
  | standardSummary : PromptKind
deriving DecidableEq, Repr

/-- `get_summary_prompt` (`app/prompts/summary_prompts.py`): document
type takes precedence, then length, defaulting to the standard prompt. -/
def get_summary_prompt (length document_type : Str) : PromptKind :=
  if document_type = ("technical").data then PromptKind.technicalSummary
  else if document_type = ("few-shot").data then PromptKind.fewShotSummary
  else if length = ("brief").data then PromptKind.briefSummary
  else if length = ("detailed").data then PromptKind.detailedSummary
  else PromptKind.standardSummary

/-- The dictionary `SummarizationChain.summarize` returns. -/
structure SummaryResult where
  summary : Str
  length : Str
  document_type : Str
  method : Str
  num_chunks : Option Nat
deriving DecidableEq, Repr

/-- `SummarizationChain._estimate_tokens`: `len(text) // 4`. -/
def estimate_tokens (text : Str) : Nat := text.length / 4

/-- `SummarizationChain.max_doc_length`: the 4000-token single-pass limit. -/
def max_doc_length : Nat := 4000

/-- `SummarizationChain._map_reduce_summarize`: split the document with
chunk size 3000 / overlap 200, run the map-reduce chain (one oracle call
over the section list), and return the summary with hard-coded
`length = "standard"`, `document_type = "general"`. -/
def map_reduce_summarize (mapReduceChain : List Str → Except PyErr Str)
    (text : Str) : Except PyErr SummaryResult :=
  let docs := split_text 3000 200 text
  match mapReduceChain docs with
  | Except.error e => Except.error e
  | Except.ok s =>
    Except.ok
      { summary := pyStrip s
        length := ("standard").data
        document_type := ("general").data
        method := ("map_reduce").data
        num_chunks := some docs.length }

/-- `SummarizationChain.summarize`: select the prompt, take the
map-reduce path when the token estimate exceeds the single-pass limit,
otherwise one single-pass completion parameterized by the requested
length and document type. -/
def summarize (llmChain : PromptKind → Str → Except PyErr Str)
    (mapReduceChain : List Str → Except PyErr Str)
    (text length document_type : Str) : Except PyErr SummaryResult :=
  let prompt := get_summary_prompt length document_type
  if estimate_tokens text > max_doc_length then
    map_reduce_summarize mapReduceChain text
  else
    match llmChain prompt text with
    | Except.error e => Except.error e
    | Except.ok s =>
      Except.ok
        { summary := pyStrip s
          length := length
          document_type := document_type
          method := ("single_pass").data
          num_chunks := none }

/-- One entry of the list `batch_summarize` returns: either the summary
dict of a successful `summarize` call, or the error record
`{"summary": "", "error": str(e), "length": ..., "document_type": ...}`. -/
inductive BatchOutcome where
  | succeeded (r : SummaryResult) : BatchOutcome
  | failed (e : PyErr) (length document_type : Str) : BatchOutcome
deriving DecidableEq, Repr

/-- `SummarizationChain.batch_summarize`: summarize each text in input
order, catching each text's exception individually and recording it in
that text's slot instead of aborting the batch. -/
def batch_summarize (llmChain : PromptKind → Str → Except PyErr Str)
    (mapReduceChain : List Str → Except PyErr Str)
    (texts : List Str) (length document_type : Str) : List BatchOutcome :=
  texts.map
    (fun t =>
      match summarize llmChain mapReduceChain t length document_type with
      | Except.ok r => BatchOutcome.succeeded r
      | Except.error e => BatchOutcome.failed e length document_type)

/-- A 16004-character document: its token estimate `16004 / 4 = 4001`
exceeds the 4000-token single-pass limit. -/
def longText : Str := List.replicate 16004 'a'

/-! ## Splitter lemmas -/

theorem prefix_decomp {sep l : Str} (h : sep.isPrefixOf l) :
    sep ++ List.drop sep.length l = l := by
  have hp : sep <+: l := List.isPrefixOf_iff_prefix.mp h
  obtain ⟨t, ht⟩ := hp
  subst ht
  simp

/-- Splitting on a separator loses no characters. -/
theorem splitKeep_join (sep : Str) (text : Str) :
    (splitKeep sep text).flatten = text := by
  induction text using splitKeep.induct sep with
  | case1 => simp [splitKeep]
  | case2 c rest hcond ih =>
    rw [splitKeep, if_pos hcond]
    obtain ⟨n, hn⟩ : ∃ n, List.length sep = n + 1 := by
      have hne : sep ≠ [] := hcond.2
      have hpos : 0 < sep.length := List.length_pos.mpr hne
      exact ⟨sep.length - 1, by omega⟩
    have hd := prefix_decomp hcond.1
    rw [hn, List.drop_succ_cons] at hd
    rw [List.flatten_cons, ih, hn]
    simpa using hd
  | case3 c rest hcond heq ih =>
    rw [splitKeep, if_neg hcond, heq]
    rw [heq] at ih
    simp only [List.flatten_nil] at ih
    simp [← ih]
  | case4 c rest hcond p ps heq hp ih =>
    rw [splitKeep, if_neg hcond, heq]
    show (if List.isPrefixOf sep p = true then [c] :: p :: ps
          else (c :: p) :: ps).flatten = c :: rest
    rw [if_pos hp]
    rw [heq] at ih
    simp only [List.flatten_cons] at ih ⊢
    simp [ih]
  | case5 c rest hcond p ps heq hp ih =>
    rw [splitKeep, if_neg hcond, heq]
    show (if List.isPrefixOf sep p = true then [c] :: p :: ps
          else (c :: p) :: ps).flatten = c :: rest
    rw [if_neg hp]
    rw [heq] at ih
    simp only [List.flatten_cons] at ih ⊢
    simp [← List.append_assoc, ih]

/-- Every piece produced by `splitKeep` is non-empty. -/
theorem splitKeep_ne_nil (sep : Str) (text : Str) :
    ∀ p ∈ splitKeep sep text, p ≠ [] := by
  induction text using splitKeep.induct sep with
  | case1 => simp [splitKeep]
  | case2 c rest hcond ih =>
    rw [splitKeep, if_pos hcond]
    intro p hp
    rcases List.mem_cons.mp hp with h | h
    · subst h; exact hcond.2
    · exact ih p h
  | case3 c rest hcond heq ih =>
    rw [splitKeep, if_neg hcond, heq]
    simp
  | case4 c rest hcond p ps heq hp ih =>
    rw [splitKeep, if_neg hcond, heq]
    show ∀ q ∈ (if List.isPrefixOf sep p = true then [c] :: p :: ps
          else (c :: p) :: ps), q ≠ []
    rw [if_pos hp]
    rw [heq] at ih
    intro q hq
    rcases List.mem_cons.mp hq with h | h
    · subst h; simp
    · exact ih q h
  | case5 c rest hcond p ps heq hp ih =>
    rw [splitKeep, if_neg hcond, heq]
    show ∀ q ∈ (if List.isPrefixOf sep p = true then [c] :: p :: ps
          else (c :: p) :: ps), q ≠ []
    rw [if_neg hp]
    rw [heq] at ih
    intro q hq
    rcases List.mem_cons.mp hq with h | h
    · subst h; simp
    · exact ih q (List.mem_cons_of_mem p h)

theorem flatten_map_singleton (text : Str) :
    (text.map (fun c => [c])).flatten = text := by
  induction text with
  | nil => simp
  | cons c rest ih => simp [ih]

theorem flatten_flatMap (g : Str → List Str) (l : List Str)
    (h : ∀ p ∈ l, (g p).flatten = p) :
    (l.flatMap g).flatten = l.flatten := by
  induction l with
  | nil => simp
  | cons a l ih =>
    rw [List.flatMap_cons, List.flatten_append, List.flatten_cons,
      h a (List.mem_cons_self a l), ih (fun p hp => h p (List.mem_cons_of_mem a hp))]

/-- Recursive separator splitting loses no characters. -/
theorem splitPieces_flatten (cs : Nat) (seps : List Str) (text : Str) :
    (splitPieces cs seps text).flatten = text := by
  induction seps, text using splitPieces.induct cs with
  | case1 t => simp [splitPieces]
  | case2 text hne hlen =>
    rcases text with _ | ⟨c, rest⟩
    · exact absurd rfl hne
    · rw [splitPieces, if_pos hlen]
      · simp
      · simp
  | case3 text hne hlen =>
    rcases text with _ | ⟨c, rest⟩
    · exact absurd rfl hne
    · rw [splitPieces, if_neg hlen]
      · exact flatten_map_singleton _
      · simp
  | case4 sep seps text hne hlen =>
    rcases text with _ | ⟨c, rest⟩
    · exact absurd rfl hne
    · rw [splitPieces, if_pos hlen]
      · simp
      · simp
  | case5 seps text hne hlen =>
    rcases text with _ | ⟨c, rest⟩
    · exact absurd rfl hne
    · rw [splitPieces, if_neg hlen, if_pos rfl]
      · exact flatten_map_singleton _
      · simp
  | case6 sep seps text hne hlen hsep ih =>
    rcases text with _ | ⟨c, rest⟩
    · exact absurd rfl hne
    · rw [splitPieces, if_neg hlen, if_neg hsep]
      · have hg : ∀ p ∈ splitKeep sep (c :: rest),
            ((fun p => if p.length ≤ cs then [p] else splitPieces cs seps p) p).flatten = p := by
          intro p hp
          by_cases hpl : p.length ≤ cs
          · simp [if_pos hpl]
          · simp only [if_neg hpl]
            exact ih p
        rw [flatten_flatMap _ _ hg, splitKeep_join]
      · simp

/-- With a positive chunk size, every piece produced by the recursive
splitting is non-empty and at most the chunk size long. -/
theorem splitPieces_bounds (cs : Nat) (hcs : 1 ≤ cs) (seps : List Str) (text : Str) :
    ∀ p ∈ splitPieces cs seps text, p ≠ [] ∧ p.length ≤ cs := by
  induction seps, text using splitPieces.induct cs with
  | case1 t => simp [splitPieces]
  | case2 text hne hlen =>
    rcases text with _ | ⟨c, rest⟩
    · exact absurd rfl hne
    · rw [splitPieces, if_pos hlen]
      · intro p hp
        rcases List.mem_singleton.mp hp with h
        subst h
        exact ⟨by simp, hlen⟩
      · simp
  | case3 text hne hlen =>
    rcases text with _ | ⟨c, rest⟩
    · exact absurd rfl hne
    · rw [splitPieces, if_neg hlen]
      · intro p hp
        rcases List.mem_map.mp hp with ⟨a, _, h⟩
        subst h
        exact ⟨by simp, by simpa using hcs⟩
      · simp
  | case4 sep seps text hne hlen =>
    rcases text with _ | ⟨c, rest⟩
    · exact absurd rfl hne
    · rw [splitPieces, if_pos hlen]
      · intro p hp
        rcases List.mem_singleton.mp hp with h
        subst h
        exact ⟨by simp, hlen⟩
      · simp
  | case5 seps text hne hlen =>
    rcases text with _ | ⟨c, rest⟩
    · exact absurd rfl hne
    · rw [splitPieces, if_neg hlen, if_pos rfl]
      · intro p hp
        rcases List.mem_map.mp hp with ⟨a, _, h⟩
        subst h
        exact ⟨by simp, by simpa using hcs⟩
      · simp
  | case6 sep seps text hne hlen hsep ih =>
    rcases text with _ | ⟨c, rest⟩
    · exact absurd rfl hne
    · rw [splitPieces, if_neg hlen, if_neg hsep]
      · intro p hp
        rcases List.mem_flatMap.mp hp with ⟨q, hq, hpq⟩
        by_cases hql : q.length ≤ cs
        · rw [if_pos hql] at hpq
          rcases List.mem_singleton.mp hpq with h
          subst h
          exact ⟨splitKeep_ne_nil sep _ p hq, hql⟩
        · rw [if_neg hql] at hpq
          exact ih q p hpq
      · simp

/-- Reassembly invariant: the new-content parts of the produced chunks
concatenate to the pending content followed by the remaining pieces. -/
theorem mergeCB_bodies (cs ov : Nat) (ps : List Str) :
    ∀ carry cur : Str,
      ((mergeCB cs ov carry cur ps).map Prod.snd).flatten = cur ++ ps.flatten := by
  induction ps with
  | nil =>
    intro carry cur
    rw [mergeCB]
    by_cases h : carry = [] ∧ cur = []
    · rw [if_pos h]
      simp [h.2]
    · rw [if_neg h]
      simp
  | cons p ps ih =>
    intro carry cur
    rw [mergeCB]
    by_cases hfit : carry.length + cur.length + p.length ≤ cs
    · rw [if_pos hfit, ih]
      simp
    · rw [if_neg hfit]
      simp only [List.map_cons, List.flatten_cons]
      rw [ih]

/-- The head chunk of a reassembly keeps the carry it was started with. -/
theorem mergeCB_head (cs ov : Nat) (ps : List Str) :
    ∀ carry cur : Str,
      mergeCB cs ov carry cur ps = [] ∨
      ∃ b rest, mergeCB cs ov carry cur ps = (carry, b) :: rest := by
  induction ps with
  | nil =>
    intro carry cur
    rw [mergeCB]
    by_cases h : carry = [] ∧ cur = []
    · rw [if_pos h]
      exact Or.inl rfl
    · rw [if_neg h]
      exact Or.inr ⟨cur, [], rfl⟩
  | cons p ps ih =>
    intro carry cur
    rw [mergeCB]
    by_cases hfit : carry.length + cur.length + p.length ≤ cs
    · rw [if_pos hfit]
      exact ih carry (cur ++ p)
    · rw [if_neg hfit]
      exact Or.inr ⟨cur, _, rfl⟩

/-- Reassembly started within the overlap bound keeps every chunk's
carry within the overlap bound. -/
theorem mergeCB_carry_le (cs ov : Nat) (ps : List Str) :
    ∀ carry cur : Str, carry.length ≤ ov →
      ∀ cb ∈ mergeCB cs ov carry cur ps, cb.1.length ≤ ov := by
  induction ps with
  | nil =>
    intro carry cur hc cb hcb
    rw [mergeCB] at hcb
    by_cases h : carry = [] ∧ cur = []
    · rw [if_pos h] at hcb
      simp at hcb
    · rw [if_neg h] at hcb
      rcases List.mem_singleton.mp hcb with h2
      subst h2
      exact hc
  | cons p ps ih =>
    intro carry cur hc cb hcb
    rw [mergeCB] at hcb
    by_cases hfit : carry.length + cur.length + p.length ≤ cs
    · rw [if_pos hfit] at hcb
      exact ih carry (cur ++ p) hc cb hcb
    · rw [if_neg hfit] at hcb
      rcases List.mem_cons.mp hcb with h2 | h2
      · subst h2
        exact hc
      · refine ih _ p ?_ cb h2
        rw [List.length_drop]
        have hk : min ov (cs - p.length) ≤ ov := Nat.min_le_left _ _
        omega

/-- Adjacent chunks: each chunk's carry is a suffix of the previous
chunk. -/
theorem mergeCB_chain (cs ov : Nat) (ps : List Str) :
    ∀ carry cur : Str,
      List.Chain' (fun x y => y.1 <:+ x.1 ++ x.2) (mergeCB cs ov carry cur ps) := by
  induction ps with
  | nil =>
    intro carry cur
    rw [mergeCB]
    by_cases h : carry = [] ∧ cur = []
    · rw [if_pos h]
      exact List.chain'_nil
    · rw [if_neg h]
      exact List.chain'_singleton _
  | cons p ps ih =>
    intro carry cur
    rw [mergeCB]
    by_cases hfit : carry.length + cur.length + p.length ≤ cs
    · rw [if_pos hfit]
      exact ih carry (cur ++ p)
    · rw [if_neg hfit]
      rw [List.chain'_cons']
      constructor
      · intro y hy
        rcases mergeCB_head cs ov ps ((carry ++ cur).drop
            ((carry ++ cur).length - min ov (cs - p.length))) p with h | ⟨b, rest, h⟩
        · rw [h] at hy
          simp at hy
        · rw [h] at hy
          simp only [List.head?_cons, Option.mem_def, Option.some_inj] at hy
          subst hy
          exact List.drop_suffix _ _
      · exact ih _ p

/-- Reassembly of pieces of length at most `cs`, started within budget,
keeps every chunk within `cs` characters. -/
theorem mergeCB_size (cs ov : Nat) (ps : List Str) :
    ∀ carry cur : Str, (∀ p ∈ ps, p.length ≤ cs) →
      carry.length + cur.length ≤ cs →
      ∀ cb ∈ mergeCB cs ov carry cur ps, cb.1.length + cb.2.length ≤ cs := by
  induction ps with
  | nil =>
    intro carry cur hps hlen cb hcb
    rw [mergeCB] at hcb
    by_cases h : carry = [] ∧ cur = []
    · rw [if_pos h] at hcb
      simp at hcb
    · rw [if_neg h] at hcb
      rcases List.mem_singleton.mp hcb with h2
      subst h2
      exact hlen
  | cons p ps ih =>
    intro carry cur hps hlen cb hcb
    rw [mergeCB] at hcb
    have hp : p.length ≤ cs := hps p (List.mem_cons_self p ps)
    have hps2 : ∀ q ∈ ps, q.length ≤ cs := fun q hq => hps q (List.mem_cons_of_mem p hq)
    by_cases hfit : carry.length + cur.length + p.length ≤ cs
    · rw [if_pos hfit] at hcb
      refine ih carry (cur ++ p) hps2 ?_ cb hcb
      rw [List.length_append]
      omega
    · rw [if_neg hfit] at hcb
      rcases List.mem_cons.mp hcb with h2 | h2
      · subst h2
        exact hlen
      · refine ih _ p hps2 ?_ cb h2
        rw [List.length_drop]
        have hk : min ov (cs - p.length) ≤ cs - p.length := Nat.min_le_right _ _
        omega

/-- C1: round-trip.  The chunks `split_text` produces decompose into a
carried overlap (a suffix of the previous chunk, at most the configured
overlap long, empty on the first chunk) and new content, and the new
contents concatenate to the input text: removing the shared overlap from
every chunk and concatenating reconstructs the input exactly. -/
theorem split_text_roundtrip (cs ov : Nat) (text : Str) :
    ∃ cbs : List (Str × Str),
      split_text cs ov text = cbs.map (fun cb => cb.1 ++ cb.2) ∧
      (cbs.map Prod.snd).flatten = text ∧
      (∀ cb, cbs.head? = some cb → cb.1 = []) ∧
      (∀ cb ∈ cbs, cb.1.length ≤ ov) ∧
      List.Chain' (fun x y => y.1 <:+ x.1 ++ x.2) cbs := by
  refine ⟨mergeCB cs ov [] [] (splitPieces cs defaultSeparators text),
    rfl, ?_, ?_, ?_, ?_⟩
  · rw [mergeCB_bodies]
    simp [splitPieces_flatten]
  · intro cb hcb
    rcases mergeCB_head cs ov (splitPieces cs defaultSeparators text) [] [] with h | ⟨b, rest, h⟩
    · rw [h] at hcb
      simp at hcb
    · rw [h] at hcb
      simp only [List.head?_cons, Option.some_inj] at hcb
      rw [← hcb]
  · exact mergeCB_carry_le cs ov _ [] [] (Nat.zero_le ov)
  · exact mergeCB_chain cs ov _ [] []

theorem head_mem_of_isPrefixOf {sep l : Str} {c0 : Char}
    (h : sep.isPrefixOf l) (hh : sep.head? = some c0) : c0 ∈ l := by
  obtain ⟨t, ht⟩ := List.isPrefixOf_iff_prefix.mp h
  rcases sep with _ | ⟨s, stail⟩
  · simp at hh
  · simp only [List.head?_cons, Option.some_inj] at hh
    subst hh
    rw [← ht]
    simp

/-- When the (non-empty) separator occurs nowhere in the text, splitting
on it returns the text as a single piece. -/
theorem splitKeep_no_occur {sep : Str} {c0 : Char} (hh : sep.head? = some c0) :
    ∀ text : Str, c0 ∉ text → text ≠ [] → splitKeep sep text = [text] := by
  intro text
  induction text with
  | nil => intro _ h; exact absurd rfl h
  | cons c rest ih =>
    intro hc _
    have hcond : ¬(sep.isPrefixOf (c :: rest) = true ∧ sep ≠ []) := by
      rintro ⟨hpre, -⟩
      exact hc (head_mem_of_isPrefixOf hpre hh)
    rw [splitKeep, if_neg hcond]
    rcases rest with _ | ⟨c2, rest2⟩
    · rw [splitKeep]
    · have hc2 : c0 ∉ c2 :: rest2 := fun h => hc (List.mem_cons_of_mem c h)
      rw [ih hc2 (by simp)]
      have hp : ¬sep.isPrefixOf (c2 :: rest2) = true := by
        intro hpre
        exact hc2 (head_mem_of_isPrefixOf hpre hh)
      show (if sep.isPrefixOf (c2 :: rest2) = true
        then [c] :: (c2 :: rest2) :: [] else (c :: c2 :: rest2) :: []) = [c :: c2 :: rest2]
      rw [if_neg hp]

/-- One recursion step of the splitter when the current separator does
not occur in the (over-long) text: it falls through to the next
separator. -/
theorem splitPieces_step (cs : Nat) (sep : Str) (seps : List Str) (text : Str)
    (hlen : ¬text.length ≤ cs) (hsep : sep ≠ [])
    (hsingle : splitKeep sep text = [text]) :
    splitPieces cs (sep :: seps) text = splitPieces cs seps text := by
  rcases text with _ | ⟨c, rest⟩
  · exact absurd (by simp) hlen
  · rw [splitPieces, if_neg hlen, if_neg hsep]
    · rw [hsingle]
      simp only [List.flatMap_cons, List.flatMap_nil, List.append_nil]
      rw [if_neg hlen]
    · simp

/-- On a text exercising the character fallback, the recursive splitting
with the default separators degenerates to character-level splitting. -/
theorem charOnly_pieces (cs : Nat) (text : Str) (hlen : ¬text.length ≤ cs)
    (hco : charOnly text) :
    splitPieces cs defaultSeparators text = text.map (fun c => [c]) := by
  have hne : text ≠ [] := by
    intro h
    subst h
    exact hlen (by simp)
  have hnl : '\n' ∉ text := fun h => hco '\n' h (by simp [sepChars])
  have hdot : '.' ∉ text := fun h => hco '.' h (by simp [sepChars])
  have hcomma : ',' ∉ text := fun h => hco ',' h (by simp [sepChars])
  have hsp : ' ' ∉ text := fun h => hco ' ' h (by simp [sepChars])
  have e1 := splitPieces_step cs ("\n\n".data)
    (("\n".data) :: (". ".data) :: (", ".data) :: (" ".data) :: [[]]) text hlen
    (by decide) (splitKeep_no_occur (by decide) text hnl hne)
  have e2 := splitPieces_step cs ("\n".data)
    ((". ".data) :: (", ".data) :: (" ".data) :: [[]]) text hlen
    (by decide) (splitKeep_no_occur (by decide) text hnl hne)
  have e3 := splitPieces_step cs (". ".data)
    ((", ".data) :: (" ".data) :: [[]]) text hlen
    (by decide) (splitKeep_no_occur (by decide) text hdot hne)
  have e4 := splitPieces_step cs (", ".data)
    ((" ".data) :: [[]]) text hlen
    (by decide) (splitKeep_no_occur (by decide) text hcomma hne)
  have e5 := splitPieces_step cs (" ".data)
    [[]] text hlen
    (by decide) (splitKeep_no_occur (by decide) text hsp hne)
  show splitPieces cs (("\n\n".data) :: ("\n".data) :: (". ".data) :: (", ".data) ::
    (" ".data) :: [[]]) text = text.map (fun c => [c])
  rw [e1, e2, e3, e4, e5]
  rcases text with _ | ⟨c, rest⟩
  · exact absurd rfl hne
  · rw [splitPieces, if_neg hlen, if_pos rfl]
    simp

/-- A text within the chunk size is returned as a single chunk equal to
the input (no chunk at all when it is empty). -/
theorem split_text_short (cs ov : Nat) (text : Str) (hlen : text.length ≤ cs) :
    split_text cs ov text = if text = [] then [] else [text] := by
  rcases text with _ | ⟨c, rest⟩
  · simp [split_text, split_text_with, splitPieces, mergeCB]
  · rw [if_neg (by simp)]
    rw [split_text, split_text_with]
    show (mergeCB cs ov [] [] (splitPieces cs
      (("\n\n".data) :: ("\n".data) :: (". ".data) :: (", ".data) ::
        (" ".data) :: [[]]) (c :: rest))).map (fun cb => cb.1 ++ cb.2) = [c :: rest]
    rw [splitPieces, if_pos hlen]
    · rw [mergeCB, if_pos (by simpa using hlen), mergeCB,
        if_neg (by simp)]
      simp
    · simp

/-- With unit pieces (character-level splitting), consecutive chunks
share exactly `ov` characters: the first `ov` characters of each later
chunk equal the last `ov` characters of the chunk before it. -/
theorem mergeCB_char_chain (cs ov : Nat) (hov : ov < cs) (ps : List Str) :
    ∀ carry cur : Str, (∀ p ∈ ps, p.length = 1) →
      carry.length + cur.length ≤ cs →
      List.Chain' (fun a b => b.take ov = a.drop (a.length - ov))
        ((mergeCB cs ov carry cur ps).map (fun cb => cb.1 ++ cb.2)) := by
  induction ps with
  | nil =>
    intro carry cur hps hlen
    rw [mergeCB]
    by_cases h : carry = [] ∧ cur = []
    · rw [if_pos h]
      simp
    · rw [if_neg h]
      simp
  | cons p ps ih =>
    intro carry cur hps hlen
    have hp1 : p.length = 1 := hps p (List.mem_cons_self p ps)
    have hps2 : ∀ q ∈ ps, q.length = 1 := fun q hq => hps q (List.mem_cons_of_mem p hq)
    rw [mergeCB]
    by_cases hfit : carry.length + cur.length + p.length ≤ cs
    · rw [if_pos hfit]
      refine ih carry (cur ++ p) hps2 ?_
      rw [List.length_append]
      omega
    · rw [if_neg hfit]
      have hk : min ov (cs - p.length) = ov := by
        have hle : ov ≤ cs - p.length := by omega
        exact Nat.min_eq_left hle
      have hclen : cs ≤ (carry ++ cur).length := by
        rw [List.length_append]
        omega
      have hcarrylen :
          ((carry ++ cur).drop ((carry ++ cur).length - min ov (cs - p.length))).length
            = ov := by
        rw [List.length_drop, hk]
        omega
      simp only [List.map_cons]
      rw [List.chain'_cons']
      constructor
      · intro y hy
        rcases mergeCB_head cs ov ps ((carry ++ cur).drop
            ((carry ++ cur).length - min ov (cs - p.length))) p with h | ⟨b, rest, h⟩
        · rw [h] at hy
          simp at hy
        · rw [h] at hy
          simp only [List.map_cons, List.head?_cons, Option.mem_def, Option.some_inj] at hy
          subst hy
          show ((carry ++ cur).drop ((carry ++ cur).length - min ov (cs - p.length)) ++ b).take ov
            = (carry ++ cur).drop ((carry ++ cur).length - ov)
          rw [List.take_left' hcarrylen, hk]
      · refine ih _ p hps2 ?_
        rw [hcarrylen]
        omega

/-- C2: for every chunk size ≥ 1 and overlap < chunk size, every chunk
`split_text` produces is at most the chunk size long, and on texts where
splitting falls back to character-based splitting (no default separator
occurs) every pair of adjacent chunks shares exactly `overlap`
characters at their boundary. -/
theorem split_text_chunk_bounds (cs ov : Nat) (hcs : 1 ≤ cs) (hov : ov < cs) (text : Str) :
    (∀ chunk ∈ split_text cs ov text, chunk.length ≤ cs) ∧
    (charOnly text →
      List.Chain' (fun a b => b.take ov = a.drop (a.length - ov)) (split_text cs ov text)) := by
  constructor
  · intro chunk hchunk
    rcases List.mem_map.mp hchunk with ⟨cb, hcb, h⟩
    subst h
    have hsz := mergeCB_size cs ov (splitPieces cs defaultSeparators text) [] []
      (fun p hp => (splitPieces_bounds cs hcs defaultSeparators text p hp).2)
      (by simp) cb hcb
    simpa [List.length_append] using hsz
  · intro hco
    by_cases hlen : text.length ≤ cs
    · rw [split_text_short cs ov text hlen]
      by_cases h : text = []
      · rw [if_pos h]
        simp
      · rw [if_neg h]
        simp
    · rw [split_text, split_text_with, charOnly_pieces cs text hlen hco]
      refine mergeCB_char_chain cs ov hov _ [] [] ?_ (by simp)
      intro p hp
      rcases List.mem_map.mp hp with ⟨c, _, h⟩
      subst h
      rfl

/-- Witness for C2 at chunk size 5, overlap 2, on the separator-free
text `abcdefgh`: the produced chunks are `abcde` and `defgh`; both fit
in 5 characters and they share exactly the two boundary characters. -/
theorem split_text_chunk_bounds_witness :
    (1 ≤ 5 ∧ 2 < 5) ∧
    ((∀ chunk ∈ split_text 5 2 ("abcdefgh".data), chunk.length ≤ 5) ∧
      (charOnly ("abcdefgh".data) →
        List.Chain' (fun a b => b.take 2 = a.drop (a.length - 2))
          (split_text 5 2 ("abcdefgh".data)))) :=
  ⟨by decide, split_text_chunk_bounds 5 2 (by decide) (by decide) ("abcdefgh".data)⟩

/-! ## Embeddings service lemmas -/

theorem toBatchesAux_flatten (n : Nat) :
    ∀ (fuel : Nat) (l : List α), l.length ≤ fuel →
      (toBatchesAux n fuel l).flatten = l := by
  intro fuel
  induction fuel with
  | zero =>
    intro l hl
    rcases l with _ | ⟨a, l⟩
    · rfl
    · simp at hl
  | succ fuel ih =>
    intro l hl
    rcases l with _ | ⟨a, l⟩
    · rfl
    · rw [toBatchesAux]
      · by_cases hn : n = 0
        · rw [if_pos hn]
          simp
        · rw [if_neg hn]
          have hdrop : ((a :: l).drop n).length ≤ fuel := by
            have hpos : 1 ≤ n := Nat.one_le_iff_ne_zero.mpr hn
            simp only [List.length_drop, List.length_cons]
            simp only [List.length_cons] at hl
            omega
          rw [List.flatten_cons, ih ((a :: l).drop n) hdrop, List.take_append_drop]
      · simp

theorem toBatches_flatten (n : Nat) (l : List α) : (toBatches n l).flatten = l :=
  toBatchesAux_flatten n l.length l (Nat.le_refl _)

theorem batchBackendCall_ok {backend : Str → Except PyErr Vec} {f : Str → Vec}
    (hb : ∀ t, backend t = Except.ok (f t)) (b : List (Nat × Str)) :
    batchBackendCall backend b = Except.ok (b.map (fun p => f p.2)) := by
  induction b with
  | nil => rfl
  | cons p b ih =>
    rw [batchBackendCall, hb p.2, ih]
    rfl

theorem applyBatch_fst {f : Str → Vec} (useCache : Bool) (b : List (Nat × Str)) :
    ∀ st : List (Option Vec) × Cache,
      (applyBatch useCache st (b.zip (b.map (fun p => f p.2)))).1 = setAll f st.1 b := by
  induction b with
  | nil => intro st; rfl
  | cons p b ih =>
    intro st
    rw [List.map_cons, List.zip_cons_cons]
    show (applyBatch useCache
      (st.1.set p.1 (some (f p.2)),
        if useCache then (cacheKey p.2, f p.2) :: st.2 else st.2)
      (b.zip (b.map (fun p => f p.2)))).1 = _
    rw [ih]
    rfl

theorem applyBatch_length (useCache : Bool) (pvs : List ((Nat × Str) × Vec)) :
    ∀ st : List (Option Vec) × Cache,
      (applyBatch useCache st pvs).1.length = st.1.length := by
  induction pvs with
  | nil => intro st; rfl
  | cons pv pvs ih =>
    intro st
    show (applyBatch useCache _ pvs).1.length = _
    rw [ih]
    simp

theorem setAll_append (f : Str → Vec) (ps qs : List (Nat × Str))
    (es : List (Option Vec)) :
    setAll f es (ps ++ qs) = setAll f (setAll f es ps) qs := by
  simp [setAll, List.foldl_append]

theorem processBatches_ok {backend : Str → Except PyErr Vec} {f : Str → Vec}
    (hb : ∀ t, backend t = Except.ok (f t)) (useCache : Bool)
    (bs : List (List (Nat × Str))) :
    ∀ st : List (Option Vec) × Cache, ∃ c2,
      processBatches backend useCache bs st
        = Except.ok (setAll f st.1 bs.flatten, c2) := by
  induction bs with
  | nil =>
    intro st
    exact ⟨st.2, by simp [processBatches, setAll]⟩
  | cons b bs ih =>
    intro st
    rw [processBatches, batchBackendCall_ok hb]
    obtain ⟨c2, h⟩ := ih (applyBatch useCache st (b.zip (b.map (fun p => f p.2))))
    refine ⟨c2, ?_⟩
    show processBatches backend useCache bs
        (applyBatch useCache st (b.zip (b.map (fun p => f p.2))))
      = Except.ok (setAll f st.1 (b :: bs).flatten, c2)
    rw [h, applyBatch_fst, List.flatten_cons, setAll_append]

theorem processBatches_length {backend : Str → Except PyErr Vec} (useCache : Bool)
    (bs : List (List (Nat × Str))) :
    ∀ st es c2, processBatches backend useCache bs st = Except.ok (es, c2) →
      es.length = st.1.length := by
  induction bs with
  | nil =>
    intro st es c2 h
    rw [processBatches] at h
    cases h
    rfl
  | cons b bs ih =>
    intro st es c2 h
    rw [processBatches] at h
    rcases hbc : batchBackendCall backend b with e | vs
    · rw [hbc] at h
      cases h
    · rw [hbc] at h
      have := ih _ es c2 h
      rwa [applyBatch_length] at this

theorem set_append_cons (pre : List α) (x y : α) (l : List α) :
    (pre ++ x :: l).set pre.length y = pre ++ y :: l := by
  induction pre with
  | nil => rfl
  | cons a pre ih => simp [List.set_cons_succ, ih]

theorem planEmbed_length (useCache : Bool) (cache : Cache) (ts : List Str) :
    ∀ i, (planEmbed useCache cache i ts).1.length = ts.length := by
  induction ts with
  | nil => intro i; rfl
  | cons t ts ih =>
    intro i
    rw [planEmbed]
    rcases h : cacheHit useCache cache t with _ | v
    · simpa using ih (i + 1)
    · simpa using ih (i + 1)

/-- Writing the backend vectors back at the planned miss indices fills
every slot with the value `embed_text` would produce. -/
theorem setAll_planEmbed {f : Str → Vec} (useCache : Bool) (cache : Cache)
    (ts : List Str) :
    ∀ (i : Nat) (pre : List (Option Vec)), pre.length = i →
      setAll f (pre ++ (planEmbed useCache cache i ts).1) (planEmbed useCache cache i ts).2
        = pre ++ ts.map (fun t => some (embedSingleVal useCache f cache t)) := by
  induction ts with
  | nil =>
    intro i pre hpre
    simp [planEmbed, setAll]
  | cons t ts ih =>
    intro i pre hpre
    subst hpre
    rw [planEmbed]
    rcases h : cacheHit useCache cache t with _ | v
    · show setAll f (pre ++ none :: (planEmbed useCache cache (pre.length + 1) ts).1)
        ((pre.length, t) :: (planEmbed useCache cache (pre.length + 1) ts).2) = _
      rw [setAll, List.foldl_cons]
      show setAll f ((pre ++ none :: (planEmbed useCache cache (pre.length + 1) ts).1).set
        pre.length (some (f t))) (planEmbed useCache cache (pre.length + 1) ts).2 = _
      rw [set_append_cons]
      have hstep := ih (pre.length + 1) (pre ++ [some (f t)]) (by simp)
      simp only [List.append_assoc, List.singleton_append] at hstep
      rw [hstep, List.map_cons]
      simp [embedSingleVal, h]
    · show setAll f (pre ++ some v :: (planEmbed useCache cache (pre.length + 1) ts).1)
        (planEmbed useCache cache (pre.length + 1) ts).2 = _
      have hstep := ih (pre.length + 1) (pre ++ [some v]) (by simp)
      simp only [List.append_assoc, List.singleton_append] at hstep
      rw [hstep, List.map_cons]
      simp [embedSingleVal, h]

/-- The value and call count `embed_text` produces under a backend that
embeds every text successfully. -/
theorem embed_text_ok {backend : Str → Except PyErr Vec} {f : Str → Vec}
    (hb : ∀ t, backend t = Except.ok (f t)) (useCache : Bool) (cache : Cache)
    (t : Str) :
    ∃ c2 n, embed_text backend useCache cache t
      = (Except.ok (embedSingleVal useCache f cache t), c2, n) := by
  rcases h : cacheHit useCache cache t with _ | v
  · exact ⟨if useCache then (cacheKey t, f t) :: cache else cache, 1,
      by simp [embed_text, embedSingleVal, h, hb t]⟩
  · exact ⟨cache, 0, by simp [embed_text, embedSingleVal, h]⟩

/-- C3: batch embedding preserves input order.  Under any cache state
and batch size, a successful `embed_texts` returns one vector per input
text, and the `i`-th vector is exactly the vector `embed_text` would
return for the `i`-th text from the same starting cache, whatever the
mix of cache hits and misses. -/
theorem embed_texts_preserves_order (backend : Str → Except PyErr Vec)
    (f : Str → Vec) (hb : ∀ t, backend t = Except.ok (f t)) (useCache : Bool)
    (batchSize : Nat) (cache : Cache) (texts : List Str) :
    ∃ c2, embed_texts backend useCache batchSize cache texts
        = Except.ok (texts.map (fun t => some (embedSingleVal useCache f cache t)), c2)
      ∧ ∀ t ∈ texts, ∃ c3 n,
          embed_text backend useCache cache t
            = (Except.ok (embedSingleVal useCache f cache t), c3, n) := by
  rw [embed_texts]
  obtain ⟨c2, h⟩ := processBatches_ok hb useCache
    (toBatches batchSize (planEmbed useCache cache 0 texts).2)
    ((planEmbed useCache cache 0 texts).1, cache)
  refine ⟨c2, ?_, fun t _ => embed_text_ok hb useCache cache t⟩
  rw [h, toBatches_flatten]
  have hplan := setAll_planEmbed (f := f) useCache cache texts 0 [] rfl
  simp only [List.nil_append] at hplan
  simp [hplan]

/-- Witness for C3: three texts with a hit/miss mix (the cache already
holds `"a"`), batch size 2. -/
theorem embed_texts_preserves_order_witness :
    ∃ c2, embed_texts (fun t => Except.ok [(t.length : Int)]) true 2
          [(("a".data : Str), ([5] : Vec))]
          [("a".data : Str), ("bb".data : Str), ("ccc".data : Str)]
        = Except.ok
            ([("a".data : Str), ("bb".data : Str), ("ccc".data : Str)].map
              (fun t => some (embedSingleVal true (fun t => [(t.length : Int)])
                [(("a".data : Str), ([5] : Vec))] t)), c2)
      ∧ ∀ t ∈ [("a".data : Str), ("bb".data : Str), ("ccc".data : Str)], ∃ c3 n,
          embed_text (fun t => Except.ok [(t.length : Int)]) true
              [(("a".data : Str), ([5] : Vec))] t
            = (Except.ok (embedSingleVal true (fun t => [(t.length : Int)])
                [(("a".data : Str), ([5] : Vec))] t), c3, n) :=
  embed_texts_preserves_order (fun t => Except.ok [(t.length : Int)])
    (fun t => [(t.length : Int)]) (fun _ => rfl) true 2
    [(("a".data : Str), ([5] : Vec))]
    [("a".data : Str), ("bb".data : Str), ("ccc".data : Str)]

theorem embed_texts_length (backend : Str → Except PyErr Vec) (useCache : Bool)
    (batchSize : Nat) (cache : Cache) (texts : List Str) (es : List (Option Vec))
    (c2 : Cache) (h : embed_texts backend useCache batchSize cache texts = Except.ok (es, c2)) :
    es.length = texts.length := by
  rw [embed_texts] at h
  have hlen := processBatches_length useCache _ _ es c2 h
  simpa [planEmbed_length] using hlen

/-! ## Error handling of `embed_text` (C4) -/

/-- C4 counterexample: with a persistently rate-limited backend and a
text absent from the cache, `EmbeddingsService.embed_text` makes exactly
one backend attempt and surfaces the backend's own `RateLimitError`
unchanged — there is no retry loop in this method and no
`EmbeddingBackendError` class anywhere in the repository — which
falsifies the claimed retry-then-promote behaviour.  (The cache-safety
half of the claim does hold: the returned cache is the untouched empty
cache.) -/
theorem embed_text_no_retry_counterexample :
    embed_text (fun _ => Except.error PyErr.rateLimitError) true [] ("hello".data)
      = (Except.error PyErr.rateLimitError, [], 1) := rfl

/-- C4 amended: on a cache miss whose backend call fails, `embed_text`
makes a single backend attempt, surfaces the backend's error unchanged
(not an `EmbeddingBackendError`), and adds no cache entry for that
text. -/
theorem embed_text_single_attempt_no_cache_write (backend : Str → Except PyErr Vec)
    (cache : Cache) (text : Str) (e : PyErr)
    (hmiss : cacheHit true cache text = none)
    (hfail : backend text = Except.error e) :
    embed_text backend true cache text = (Except.error e, cache, 1) := by
  simp [embed_text, hmiss, hfail]

/-- Witness for C4's amended claim: a rate-limited backend, a non-empty
cache that does not contain the text. -/
theorem embed_text_single_attempt_no_cache_write_witness :
    embed_text (fun _ => Except.error PyErr.rateLimitError) true
        [(("x".data : Str), ([1] : Vec))] ("hello".data)
      = (Except.error PyErr.rateLimitError, [(("x".data : Str), ([1] : Vec))], 1) :=
  embed_text_single_attempt_no_cache_write _ _ _ _ rfl rfl

/-! ## Search service (C5, C6) -/

/-- C5 counterexample: retrieval succeeds (the search on its own returns
one result) but the generation oracle fails; `search_with_answer` then
evaluates to the bare generation error — an `Except.error` carries no
result list, so the retrieved sources are not returned to the caller,
falsifying the "retrieved source list is still returned" half of the
claim. -/
theorem search_with_answer_drops_sources_counterexample :
    search (fun _ => Except.ok [1])
        (fun _ _ => [(⟨("d1".data), 1,
          [(("text".data : Str), ("hello".data : Str))]⟩ : PCMatch)])
        [] ("query".data) 5
      = Except.ok
          ([(⟨("d1".data), 1, ("hello".data),
              [(("text".data : Str), ("hello".data : Str))]⟩ : SearchResult)],
            [(("query".data : Str), ([1] : Vec))])
    ∧ search_with_answer (fun _ => Except.ok [1])
        (fun _ _ => [(⟨("d1".data), 1,
          [(("text".data : Str), ("hello".data : Str))]⟩ : PCMatch)])
        (fun _ => Except.error PyErr.generationError)
        [] ("query".data) 5
      = Except.error PyErr.generationError :=
  ⟨rfl, rfl⟩

/-- C5 amended: if retrieval succeeds and the generation step fails, the
surfaced error is the generation error itself, but the call raises: the
retrieved source list is not part of the returned value. -/
theorem search_with_answer_propagates_generation_error
    (backend : Str → Except PyErr Vec) (pcQuery : Vec → Nat → List PCMatch)
    (llm : Str → Except PyErr Str) (cache : Cache) (query : Str) (topK : Nat)
    (results : List SearchResult) (cache2 : Cache) (e : PyErr)
    (hs : search backend pcQuery cache query topK = Except.ok (results, cache2))
    (hg : llm (mkQASourcesPrompt (formatContext results) query) = Except.error e) :
    search_with_answer backend pcQuery llm cache query topK = Except.error e := by
  simp [search_with_answer, hs, answer_question, hg]

/-- Witness for C5's amended claim, at the counterexample's input. -/
theorem search_with_answer_propagates_generation_error_witness :
    search_with_answer (fun _ => Except.ok [1])
        (fun _ _ => [(⟨("d1".data), 1,
          [(("text".data : Str), ("hello".data : Str))]⟩ : PCMatch)])
        (fun _ => Except.error PyErr.generationError)
        [] ("query".data) 5
      = Except.error PyErr.generationError :=
  search_with_answer_propagates_generation_error _ _ _ _ _ _
    [(⟨("d1".data), 1, ("hello".data),
      [(("text".data : Str), ("hello".data : Str))]⟩ : SearchResult)]
    [(("query".data : Str), ([1] : Vec))] PyErr.generationError rfl rfl

/-- C6: when the source document's vector is present in the index,
`find_similar_documents` returns at most `top_k` results and the source
document's own id never appears among them, whatever the index returns
for the nearest-neighbour query. -/
theorem find_similar_excludes_source (pcFetch : Str → Option Vec)
    (pcQuery : Vec → Nat → List PCMatch) (documentId : Str) (topK : Nat) (v : Vec)
    (hfetch : pcFetch documentId = some v) :
    ∃ rs, find_similar_documents pcFetch pcQuery documentId topK = Except.ok rs
      ∧ rs.length ≤ topK
      ∧ ∀ r ∈ rs, r.document_id ≠ documentId := by
  refine ⟨(((pcQuery v (topK + 1)).filter (fun m => m.id != documentId)).map
      toSearchResult).take topK, ?_, ?_, ?_⟩
  · rw [find_similar_documents, hfetch]
  · exact List.length_take_le _ _
  · intro r hr
    have hr2 := List.mem_of_mem_take hr
    rcases List.mem_map.mp hr2 with ⟨m, hm, heq⟩
    have hid := List.of_mem_filter hm
    subst heq
    simpa [toSearchResult, bne_iff_ne] using hid

/-- Witness for C6: an index that returns the source document first and
a second document next; with `top_k = 1` only the other document is
returned. -/
theorem find_similar_excludes_source_witness :
    ∃ rs, find_similar_documents (fun _ => some ([1] : Vec))
        (fun _ _ => [(⟨("d1".data), 9, []⟩ : PCMatch), (⟨("d2".data), 7, []⟩ : PCMatch)])
        ("d1".data) 1
      = Except.ok rs
      ∧ rs.length ≤ 1
      ∧ ∀ r ∈ rs, r.document_id ≠ ("d1".data) :=
  find_similar_excludes_source _ _ _ 1 [1] rfl

/-! ## Summarization chain (C7, C9) -/

/-- C7: `batch_summarize` returns one outcome per input text in input
order; each slot is determined by its own text alone — a text whose
summarization succeeds contributes its summary even when other texts
fail, and a text whose summarization fails contributes an error record
carrying the requested length and document type, without aborting the
batch. -/
theorem batch_summarize_isolates_failures
    (llmChain : PromptKind → Str → Except PyErr Str)
    (mapReduceChain : List Str → Except PyErr Str)
    (texts : List Str) (length document_type : Str) :
    (batch_summarize llmChain mapReduceChain texts length document_type).length
        = texts.length
    ∧ ∀ (i : Nat) (t : Str), texts[i]? = some t →
        ((∀ r, summarize llmChain mapReduceChain t length document_type = Except.ok r →
            (batch_summarize llmChain mapReduceChain texts length document_type)[i]?
              = some (BatchOutcome.succeeded r))
          ∧ (∀ e, summarize llmChain mapReduceChain t length document_type = Except.error e →
            (batch_summarize llmChain mapReduceChain texts length document_type)[i]?
              = some (BatchOutcome.failed e length document_type))) := by
  refine ⟨by simp [batch_summarize], ?_⟩
  intro i t ht
  constructor
  · intro r hr
    rw [batch_summarize, List.getElem?_map, ht]
    simp [hr]
  · intro e he
    rw [batch_summarize, List.getElem?_map, ht]
    simp [he]

/-- Witness for C7: two documents, the second of which fails; the first
slot still carries its summary, the second records the error. -/
theorem batch_summarize_isolates_failures_witness :
    (batch_summarize
        (fun _ text => if text = ("bad".data : Str) then Except.error PyErr.generationError
          else Except.ok ("s".data))
        (fun _ => Except.ok ("s".data))
        [("good".data : Str), ("bad".data : Str)] ("standard".data) ("general".data)).length = 2
    ∧ (batch_summarize
        (fun _ text => if text = ("bad".data : Str) then Except.error PyErr.generationError
          else Except.ok ("s".data))
        (fun _ => Except.ok ("s".data))
        [("good".data : Str), ("bad".data : Str)] ("standard".data) ("general".data))[0]?
      = some (BatchOutcome.succeeded
          ⟨("s".data), ("standard".data), ("general".data), ("single_pass".data), none⟩)
    ∧ (batch_summarize
        (fun _ text => if text = ("bad".data : Str) then Except.error PyErr.generationError
          else Except.ok ("s".data))
        (fun _ => Except.ok ("s".data))
        [("good".data : Str), ("bad".data : Str)] ("standard".data) ("general".data))[1]?
      = some (BatchOutcome.failed PyErr.generationError ("standard".data) ("general".data)) := by
  have h := batch_summarize_isolates_failures
    (fun _ text => if text = ("bad".data : Str) then Except.error PyErr.generationError
      else Except.ok ("s".data))
    (fun _ => Except.ok ("s".data))
    [("good".data : Str), ("bad".data : Str)] ("standard".data) ("general".data)
  refine ⟨h.1.trans rfl, ?_, ?_⟩
  · exact (h.2 0 ("good".data) rfl).1 _ rfl
  · exact (h.2 1 ("bad".data) rfl).2 PyErr.generationError rfl

/-- C9: whenever the token estimate of the text exceeds the 4000-token
single-pass limit, a successful `summarize` went through the map-reduce
path and reports `length = "standard"`, `document_type = "general"` and
`method = "map_reduce"`, regardless of the length and document type the
caller requested. -/
theorem summarize_long_doc_defaults (llmChain : PromptKind → Str → Except PyErr Str)
    (mapReduceChain : List Str → Except PyErr Str)
    (text length document_type : Str) (r : SummaryResult)
    (hlong : estimate_tokens text > max_doc_length)
    (h : summarize llmChain mapReduceChain text length document_type = Except.ok r) :
    r.length = ("standard").data ∧ r.document_type = ("general").data
      ∧ r.method = ("map_reduce").data := by
  simp only [summarize] at h
  rw [if_pos hlong] at h
  simp only [map_reduce_summarize] at h
  rcases hm : mapReduceChain (split_text 3000 200 text) with e | s
  · rw [hm] at h
    cases h
  · rw [hm] at h
    cases h
    exact ⟨rfl, rfl, rfl⟩

/-- Witness for C9: a 16004-character document requested as a `brief`
summary of a `technical` document nevertheless comes back tagged
`standard` / `general` / `map_reduce`. -/
theorem summarize_long_doc_defaults_witness :
    estimate_tokens longText > max_doc_length
    ∧ ∃ r, summarize (fun _ _ => Except.ok ("s".data)) (fun _ => Except.ok ("s".data))
        longText ("brief".data) ("technical".data) = Except.ok r
      ∧ r.length = ("standard").data ∧ r.document_type = ("general").data
      ∧ r.method = ("map_reduce").data := by
  have hlen : List.length longText = 16004 := by
    rw [show longText = List.replicate 16004 'a' from rfl, List.length_replicate]
  have hlong : estimate_tokens longText > max_doc_length := by
    simp only [estimate_tokens, max_doc_length, hlen]
    decide
  have hs : summarize (fun _ _ => Except.ok ("s".data)) (fun _ => Except.ok ("s".data))
      longText ("brief".data) ("technical".data)
    = Except.ok ⟨pyStrip ("s".data), ("standard").data, ("general").data,
        ("map_reduce").data, some (split_text 3000 200 longText).length⟩ := by
    simp only [summarize]
    rw [if_pos hlong]
    rfl
  exact ⟨hlong, ⟨_, hs, summarize_long_doc_defaults _ _ _ _ _ _ hlong hs⟩⟩

/-! ## Conversation history (C8) -/

/-- C8 counterexample: starting from an empty history, six consecutive
history-updating conversational calls leave a stored history of six
turns, the oldest turn still present — the stored `chat_history` is not
bounded to the five most recent turns and nothing is evicted (only the
prompt rendering is limited to the last five turns). -/
theorem conversation_history_unbounded_counterexample :
    (runConversation (fun _ => Except.ok ("ans".data)) ("ctx".data) []
        [("q1".data), ("q2".data), ("q3".data), ("q4".data), ("q5".data),
          ("q6".data)]).map (fun h => (h.length, h.head?))
      = Except.ok (6, some ⟨("q1".data), ("ans".data)⟩)
    ∧ ¬(6 ≤ 5) :=
  ⟨rfl, by decide⟩

/-- C8 amended: the stored history is unbounded.  Every successful
history-updating call appends exactly the new `(question, answer)` pair
to the stored history, evicting nothing; only the prompt rendering is
restricted to the five most recent turns. -/
theorem answer_with_history_appends (llm : Str → Except PyErr Str)
    (hist : List QATurn) (question context : Str) (a : Str) (h2 : List QATurn) (n : Nat)
    (h : answer_with_conversation_history llm hist question context true
      = Except.ok (a, h2, n)) :
    h2 = hist ++ [⟨question, a⟩] ∧ h2.length = hist.length + 1
      ∧ n = hist.length + 1 := by
  rw [answer_with_conversation_history] at h
  rcases hl : llm (mkConversationalPrompt hist context question) with e | t
  · rw [hl] at h
    cases h
  · rw [hl] at h
    simp only [if_pos, Except.ok.injEq, Prod.mk.injEq] at h
    obtain ⟨ha, hh, hn⟩ := h
    subst ha
    subst hh
    subst hn
    refine ⟨rfl, by simp, by simp⟩

/-- Witness for C8's amended claim: one stored turn, one updating call;
the stored history afterwards is the old turn followed by the new pair. -/
theorem answer_with_history_appends_witness :
    ([⟨("q0".data), ("a0".data)⟩, ⟨("q1".data), ("ans".data)⟩] : List QATurn)
        = [⟨("q0".data), ("a0".data)⟩] ++ [⟨("q1".data), ("ans".data)⟩]
    ∧ ([⟨("q0".data), ("a0".data)⟩, ⟨("q1".data), ("ans".data)⟩] : List QATurn).length
        = ([⟨("q0".data), ("a0".data)⟩] : List QATurn).length + 1
    ∧ 2 = ([⟨("q0".data), ("a0".data)⟩] : List QATurn).length + 1 :=
  answer_with_history_appends (fun _ => Except.ok ("ans".data))
    [⟨("q0".data), ("a0".data)⟩] ("q1".data) ("ctx".data) ("ans".data)
    [⟨("q0".data), ("a0".data)⟩, ⟨("q1".data), ("ans".data)⟩] 2 rfl

/-! ## Vector payload truncation (C10) -/

/-- C10: every vector `embed_documents` prepares stores in its metadata
`"text"` entry only the first 1000 characters of the chunk content; a
search result formatted from that metadata therefore shows `take 1000`
of the chunk, which for chunks longer than 1000 characters is a strict
prefix of the chunk, not the full chunk. -/
theorem embed_documents_truncates_text (backend : Str → Except PyErr Vec)
    (useCache : Bool) (batchSize : Nat) (cache : Cache) (docs : List PyDocument)
    (vs : List PineVector) (c2 : Cache)
    (h : embed_documents backend useCache batchSize cache docs = Except.ok (vs, c2)) :
    vs.length = docs.length ∧
    ∀ (i : Nat) (d : PyDocument), docs[i]? = some d → ∃ pv, vs[i]? = some pv
      ∧ List.lookup ("text".data) pv.metadata = some (d.page_content.take 1000)
      ∧ (toSearchResult ⟨pv.id, 0, pv.metadata⟩).text
          = d.page_content.take 1000
      ∧ (1000 < d.page_content.length →
          d.page_content.take 1000 <+: d.page_content
          ∧ d.page_content.take 1000 ≠ d.page_content) := by
  rw [embed_documents] at h
  rcases he : embed_texts backend useCache batchSize cache (docs.map (·.page_content))
    with e | ⟨es, c⟩
  · rw [he] at h
    cases h
  · rw [he] at h
    cases h
    have hlen : es.length = docs.length := by
      have hl2 := embed_texts_length backend useCache batchSize cache _ es _ he
      simpa using hl2
    constructor
    · simp [List.length_zip, hlen]
    · intro i d hd
      have hi : i < docs.length := by
        rcases List.getElem?_eq_some.mp hd with ⟨hlt, _⟩
        exact hlt
      have hie : i < es.length := by
        rw [hlen]
        exact hi
      obtain ⟨ei, hei⟩ : ∃ ei, es[i]? = some ei :=
        ⟨_, List.getElem?_eq_getElem hie⟩
      have hzip : (docs.zip es)[i]? = some (d, ei) := by
        rw [List.getElem?_zip_eq_some]
        exact ⟨hd, hei⟩
      have henum : ((docs.zip es).enum)[i]? = some (i, d, ei) := by
        rw [List.getElem?_enum, hzip]
        rfl
      refine ⟨_, by rw [List.getElem?_map, henum]; rfl, ?_, ?_, ?_⟩
      · simp [List.lookup]
      · simp [toSearchResult, List.lookup]
      · intro hgt
        refine ⟨List.take_prefix 1000 _, ?_⟩
        intro heq
        have hlt := congrArg List.length heq
        rw [List.length_take] at hlt
        omega

set_option maxRecDepth 40000 in
/-- Witness for C10: one document of 1001 identical characters; the
stored metadata text is its first 1000 characters, a strict prefix. -/
theorem embed_documents_truncates_text_witness :
    embed_documents (fun _ => Except.ok ([1] : Vec)) true 100 []
        [(⟨List.replicate 1001 'a', []⟩ : PyDocument)]
      = Except.ok
          ([(⟨("doc_0".data), some ([1] : Vec),
              [(("text".data : Str), List.replicate 1000 'a')]⟩ : PineVector)],
            [((List.replicate 1001 'a' : Str), ([1] : Vec))])
    ∧ ∃ pv,
        ([(⟨("doc_0".data), some ([1] : Vec),
            [(("text".data : Str), List.replicate 1000 'a')]⟩ : PineVector)]
          : List PineVector)[0]? = some pv
        ∧ List.lookup ("text".data) pv.metadata
            = some ((List.replicate 1001 'a' : Str).take 1000)
        ∧ (toSearchResult ⟨pv.id, 0, pv.metadata⟩).text
            = (List.replicate 1001 'a' : Str).take 1000
        ∧ (1000 < (List.replicate 1001 'a' : Str).length →
            (List.replicate 1001 'a' : Str).take 1000 <+: List.replicate 1001 'a'
            ∧ (List.replicate 1001 'a' : Str).take 1000 ≠ List.replicate 1001 'a') := by
  have h := embed_documents_truncates_text (fun _ => Except.ok ([1] : Vec)) true 100 []
    [(⟨List.replicate 1001 'a', []⟩ : PyDocument)]
    [(⟨("doc_0".data), some ([1] : Vec),
      [(("text".data : Str), List.replicate 1000 'a')]⟩ : PineVector)]
    [((List.replicate 1001 'a' : Str), ([1] : Vec))] rfl
  exact ⟨rfl, h.2 0 ⟨List.replicate 1001 'a', []⟩ rfl⟩

end Workplace
